import Mathlib

/-!
# Verification of the gaming data-pipeline core

Shallow embedding, in Lean 4, of the parts of the pipeline that the
specification's testable properties talk about:

* `src/etl/load.py` — `DataLoader.load_matches` (upsert loader over a
  SQLAlchemy session created with `autocommit=False, autoflush=False`,
  see `src/database/db_utils.py`);
* `src/etl/transform.py` — `DataTransformer.deduplicate_matches`;
* `src/utils/validators.py` — pydantic `MatchData` validation;
* `src/utils/data_validator.py` — `DataValidator.validate_match_data`
  field mapping and duration normalization;
* `src/ml/forecasting.py` / `src/ml/models.py` — forecast generation,
  naive fallback and confidence intervals;
* `src/ingestion/steam_api.py` / `base_connector.py` — credential
  handling and the rate limiter.

Numeric values are modelled as `ℚ`/`ℤ`/`ℕ` (exact arithmetic); Python
dictionaries as association lists or structures of `Option`s; exceptions
as explicit outcome flags consumed by total functions; wall-clock time as
an explicit logical clock.
-/

namespace Pipeline

/-! ## Load layer (`src/etl/load.py`)

A match record as it reaches `load_matches`: its natural key, an opaque
payload standing for the remaining columns, and two failure flags that
model the only ways a record can fail inside the loader:

* `violates` — the row violates a storage constraint (NOT NULL, CHECK,
  unique …).  Because sessions are built with `autoflush=False`
  (`db_utils.py`), no flush happens inside the per-record loop (the
  `session.query` does not flush), so such a violation surfaces only at
  `session.commit()` at the end of the batch.
* `raises` — processing the record raises a Python exception inside the
  per-record `try` (e.g. `KeyError` from `match_data["match_id"]` or
  `TypeError` from `Match(**match_data)`); the handler does
  `session.rollback()`, counts one error and continues.
-/

structure Rec where
  matchId  : String
  payload  : Nat
  violates : Bool
  raises   : Bool
  deriving Repr, DecidableEq

/-- The `{"inserted": _, "updated": _, "errors": _}` counters. -/
structure Counts where
  inserted : Nat
  updated  : Nat
  errors   : Nat
  deriving Repr, DecidableEq

/-- Session state: `durable` are the committed rows of the `matches`
table; `txnMods` are uncommitted field updates (from `setattr` on a
queried row), keyed by `match_id`; `pendingAdds` are rows passed to
`session.add` and not yet committed.  `session.rollback()` clears both
uncommitted components; `session.commit()` applies them to `durable`. -/
structure SessState where
  durable     : List Rec
  txnMods     : List (String × Rec)
  pendingAdds : List Rec
  deriving Repr, DecidableEq

/-- Model of `session.rollback()`: uncommitted adds are expunged and uncommitted
modifications reverted; committed rows are untouched. -/
def SessState.rollback (s : SessState) : SessState :=
  { s with txnMods := [], pendingAdds := [] }

/-- Store an uncommitted update (`setattr` on the queried row): replace
any earlier uncommitted update for the same key, else record a new one. -/
def putMod (mods : List (String × Rec)) (k : String) (r : Rec) :
    List (String × Rec) :=
  match mods with
  | [] => [(k, r)]
  | (k', r') :: rest =>
      if k' = k then (k, r) :: rest else (k', r') :: putMod rest k r

/-- Look up an uncommitted update by key. -/
def findMod (mods : List (String × Rec)) (k : String) : Option Rec :=
  match mods with
  | [] => none
  | (k', r') :: rest => if k' = k then some r' else findMod rest k

/-- One record of the inner loop of `load_matches`.

With `autoflush=False` the `session.query(Match).filter(...).first()`
only sees committed rows, so `existing` is a lookup in `durable`.  On
the update branch every field except the key is overwritten, which —
since the key matches — replaces the stored record by `r`. -/
def processRecord (st : SessState × Counts) (r : Rec) : SessState × Counts :=
  if r.raises then
    (st.1.rollback, { st.2 with errors := st.2.errors + 1 })
  else if r.matchId ∈ st.1.durable.map Rec.matchId then
    ({ st.1 with txnMods := putMod st.1.txnMods r.matchId r },
     { st.2 with updated := st.2.updated + 1 })
  else
    ({ st.1 with pendingAdds := st.1.pendingAdds ++ [r] },
     { st.2 with inserted := st.2.inserted + 1 })

/-- Whether `session.commit()` succeeds: the flush inserts every pending
row and issues every pending update; it fails if an inserted row
duplicates a committed key or another pending key, or if any written row
violates a storage constraint. -/
abbrev CommitOk (s : SessState) : Prop :=
  (s.pendingAdds.map Rec.matchId).Nodup
    ∧ (∀ r ∈ s.pendingAdds, r.matchId ∉ s.durable.map Rec.matchId)
    ∧ (∀ r ∈ s.pendingAdds, r.violates = false)
    ∧ (∀ m ∈ s.txnMods, m.2.violates = false)

/-- Apply the uncommitted updates to the committed rows. -/
def applyMods (mods : List (String × Rec)) (durable : List Rec) : List Rec :=
  durable.map (fun d => (findMod mods d.matchId).getD d)

/-- The `session.commit()` at the end of a batch: on success the
transaction's adds and updates become durable; on failure the handler
rolls back and counts the whole batch as errors
(`stats["errors"] += len(batch)`). -/
def commitBatch (st : SessState × Counts) (batchLen : Nat) :
    SessState × Counts :=
  if CommitOk st.1 then
    ({ durable := applyMods st.1.txnMods st.1.durable ++ st.1.pendingAdds,
       txnMods := [], pendingAdds := [] }, st.2)
  else
    (st.1.rollback, { st.2 with errors := st.2.errors + batchLen })

/-- One batch: the per-record loop followed by the batch commit. -/
def processBatch (st : SessState × Counts) (batch : List Rec) :
    SessState × Counts :=
  commitBatch (batch.foldl processRecord st) batch.length

/-- Slicing `matches[i:i + batch_size]` of `range(0, len, batch_size)`,
with fuel (callers pass `bs > 0`; the default is `100`). -/
def chunksOfAux (bs : Nat) : Nat → List Rec → List (List Rec)
  | 0, _ => []
  | _, [] => []
  | fuel + 1, l => l.take bs :: chunksOfAux bs fuel (l.drop bs)

def chunksOf (bs : Nat) (l : List Rec) : List (List Rec) :=
  chunksOfAux bs l.length l

/-- Model of `DataLoader.load_matches(matches, batch_size)` run against a store
whose committed rows are `durable0`: returns the final committed rows
and the returned `stats` dictionary. -/
def loadMatches (bs : Nat) (durable0 : List Rec) (records : List Rec) :
    List Rec × Counts :=
  let sc :=
    (chunksOf bs records).foldl processBatch
      (⟨durable0, [], []⟩, ⟨0, 0, 0⟩)
  (sc.1.durable, sc.2)

/-! ## Transform layer (`src/etl/transform.py`)

`deduplicate_matches` receives a list of match dictionaries; each
carries an optional `match_id` (`match.get("match_id")` is `None` when
the key is missing) and an opaque payload for the remaining fields. -/

structure TRec where
  matchId : Option String
  payload : Nat
  deriving Repr, DecidableEq

/-- Truthiness of `match.get("match_id")` in `if match_id and ...`:
`None` and the empty string are falsy. -/
def truthyId : Option String → Bool
  | none => false
  | some s => s ≠ ""

/-- The loop of `deduplicate_matches`: keep a record when its
`match_id` is truthy and not yet in `seen`, adding it to `seen`. -/
def dedupGo (seen : List String) : List TRec → List TRec
  | [] => []
  | r :: rest =>
      match r.matchId with
      | none => dedupGo seen rest
      | some id =>
          if id ≠ "" ∧ id ∉ seen then r :: dedupGo (id :: seen) rest
          else dedupGo seen rest

/-- Model of `DataTransformer.deduplicate_matches`: the surviving records in
order, together with the `removed` count it logs
(`len(matches) - len(unique_matches)`). -/
def deduplicateMatches (l : List TRec) : List TRec × Nat :=
  let u := dedupGo [] l
  (u, l.length - u.length)

/-- The distinct truthy `match_id` values of a batch (a measure used to
state properties; the distinct keys a perfect key-dedup would keep). -/
def distinctKeyedIds (l : List TRec) : Nat :=
  ((l.filterMap TRec.matchId).filter (fun s => s ≠ "")).toFinset.card

/-- The records of a batch whose `match_id` is missing, `None`, or
empty — the ones `deduplicate_matches` drops regardless of duplication. -/
def unkeyedCount (l : List TRec) : Nat :=
  (l.filter (fun r => !truthyId r.matchId)).length

/-- The truthy `match_id` values of `l` that are not yet in `seen`
(a measure used to reason about the dedup loop). -/
def newKeys (seen : List String) (l : List TRec) : List String :=
  (l.filterMap TRec.matchId).filter (fun s => s ≠ "" ∧ s ∉ seen)

/-! ## Validation (`src/utils/validators.py`)

`validate_match_data` builds a pydantic `MatchData` model and returns
whether construction succeeded.  The model requires `match_id`,
`game_id`, `match_date`, `duration_minutes`, `match_type`, and its
`validate_duration` validator raises when `v < 0 or v > 300`.  A
candidate record is modelled with each required field optional (missing
or ill-typed ↦ `none`); `match_date` is an abstract timestamp. -/

structure MatchInput where
  matchId         : Option String
  gameId          : Option String
  matchDate       : Option Int
  durationMinutes : Option Int
  matchType       : Option String
  deriving Repr, DecidableEq

/-- Model of `validate_match_data(data)`: `True` iff all required fields are
present and `validate_duration` accepts `duration_minutes`. -/
def validateMatchData (m : MatchInput) : Bool :=
  m.matchId.isSome && m.gameId.isSome && m.matchDate.isSome
    && m.matchType.isSome
    && (match m.durationMinutes with
        | some v => !(v < 0 || 300 < v)
        | none => false)

/-! ## API field mapping (`src/utils/data_validator.py`)

`DataValidator.validate_match_data(match_data, game_id, source)` maps
source field names to canonical ones, coerces `match_date`, and
normalizes `duration_minutes`.  Dict values are numbers, strings,
datetimes, or anything else; dicts are association lists (first binding
wins, as in a Python dict there is at most one). -/

inductive Value where
  | num (q : ℚ)
  | str (s : String)
  | dt (t : ℚ)
  | other
  deriving Repr, DecidableEq

abbrev Dict := List (String × Value)

/-- Python dict lookup. -/
def dget (d : Dict) (k : String) : Option Value :=
  match d with
  | [] => none
  | (k', v) :: rest => if k' = k then some v else dget rest k

/-- Python dict assignment `d[k] = v`. -/
def dset (d : Dict) (k : String) (v : Value) : Dict :=
  match d with
  | [] => [(k, v)]
  | (k', v') :: rest =>
      if k' = k then (k, v) :: rest else (k', v') :: dset rest k v

/-- Python `int(x)` on a numeric value: truncation toward zero. -/
def pyInt (q : ℚ) : Int :=
  if 0 ≤ q then ⌊q⌋ else -⌊-q⌋

/-- The mapping loop: `for api_field, db_field in mapping.items(): if
api_field in match_data: validated[db_field] = match_data[api_field]`. -/
def mapFields (mapping : List (String × String)) (data : Dict) : Dict :=
  mapping.foldl
    (fun acc fields =>
      match dget data fields.1 with
      | some v => dset acc fields.2 v
      | none => acc)
    []

/-- The `match_date` coercion step: numeric timestamps become datetimes
(`datetime.fromtimestamp`); strings are parsed with the given ISO parser
and left unchanged when parsing fails (the error is only logged). -/
def coerceDate (parseIso : String → Option ℚ) (validated : Dict) : Dict :=
  match dget validated "match_date" with
  | some (.num q) => dset validated "match_date" (.dt q)
  | some (.str s) =>
      match parseIso s with
      | some t => dset validated "match_date" (.dt t)
      | none => validated
  | _ => validated

/-- The `duration_minutes` normalization step of
`DataValidator.validate_match_data` (lines 94–96):
`int(v / 60) if v > 60 else int(v)` for numeric `v`. -/
def normalizeDuration (validated : Dict) : Dict :=
  match dget validated "duration_minutes" with
  | some (.num q) =>
      dset validated "duration_minutes"
        (.num (if 60 < q then (pyInt (q / 60) : ℚ) else (pyInt q : ℚ)))
  | _ => validated

/-- Model of `DataValidator.validate_match_data`: field mapping, then date
coercion, then duration normalization (the required-field check only
logs and does not change the returned dict). -/
def dvValidateMatchData (mapping : List (String × String))
    (parseIso : String → Option ℚ) (data : Dict) : Dict :=
  normalizeDuration (coerceDate parseIso (mapFields mapping data))

/-! ## Forecasting (`src/ml/forecasting.py`, `src/ml/models.py`)

A forecast record as produced by `generate_player_count_forecasts`
(dates are day numbers; `forecast_id` keeps the
`f"forecast_{game_id}_{date}"` shape with the date rendered as a
number).  Values are exact rationals. -/

structure FRec where
  forecastId      : String
  gameId          : String
  forecastDate    : Nat
  predictedMetric : String
  predictedValue  : ℚ
  ciLower         : ℚ
  ciUpper         : ℚ
  modelVersion    : String
  deriving Repr, DecidableEq

def forecastId (game : String) (d : Nat) : String :=
  "forecast_" ++ game ++ "_" ++ toString d

/-- Model of `ForecastingService._generate_simple_forecasts`:
`for i in range(1, days + 1)` one record per future day, predicted value
the fixed `base_value = 1000`, bounds `base_value * 0.8` and
`base_value * 1.2`. -/
def simpleForecasts (game : String) (days : Nat) (today : Nat) :
    List FRec :=
  (List.range days).map (fun i =>
    let d := today + (i + 1)
    { forecastId := forecastId game d
      gameId := game
      forecastDate := d
      predictedMetric := "player_count"
      predictedValue := 1000
      ciLower := 1000 * (8 / 10)
      ciUpper := 1000 * (12 / 10)
      modelVersion := "1.0" })

/-- Population mean of a list of rationals. -/
def listMean (l : List ℚ) : ℚ := l.sum / l.length

/-- Population variance, the square of `np.std`. -/
def popVariance (l : List ℚ) : ℚ :=
  (l.map (fun x => (x - listMean l) ^ 2)).sum / l.length

/-- Characterization of `np.std(l)`: the nonnegative square root of the population
variance; since that root is in general irrational, the embedding
characterizes it instead of computing it. -/
def isNpStd (l : List ℚ) (σ : ℚ) : Prop :=
  0 ≤ σ ∧ σ ^ 2 = popVariance l

/-- The `std_dev` computed in `PlayerCountForecaster.forecast`:
`np.std(predictions) if len(predictions) > 1 else predictions[0] * 0.1`. -/
def forecasterStdSpec (preds : List ℚ) (σ : ℚ) : Prop :=
  if 1 < preds.length then isNpStd preds σ
  else σ = preds.headD 0 * (1 / 10)

/-- The forecast dataframe built at the end of
`PlayerCountForecaster.forecast`: future dates `last_date + 1 .. +
periods` paired with the model's predictions, each row given the band
`predicted_value ∓ 1.96 * std_dev`. -/
def forecastRows (lastDate : Nat) (periods : Nat) (preds : List ℚ)
    (σ : ℚ) : List (Nat × ℚ × ℚ × ℚ) :=
  (((List.range periods).map (fun i => lastDate + i + 1)).zip preds).map
    (fun row =>
      (row.1, row.2, row.2 - (196 / 100) * σ, row.2 + (196 / 100) * σ))

/-- Model of `ForecastingService.generate_player_count_forecasts`.

The parts of the Python function that live outside the embedded program
are explicit parameters: `hist` is the per-distinct-day result of the
`GROUP BY DATE(match_date)` query (`_get_historical_match_data`);
`isTrained` is `self.forecaster.is_trained`; `trainRaises` /
`inferRaises` say whether `train` / `forecast` raise (both `except`
blocks fall back to `_generate_simple_forecasts`); `preds` are the
fitted model's predictions for the horizon (one per forecast row) and
`σ` its `std_dev`; `today` is `datetime.now().date()` and `lastDate`
the maximal historical date. -/
def generatePlayerCountForecasts (game : String) (days : Nat)
    (hist : List (Nat × Nat)) (isTrained trainRaises inferRaises : Bool)
    (preds : List ℚ) (σ : ℚ) (today lastDate : Nat) : List FRec :=
  if hist.length < 7 then simpleForecasts game days today
  else if !isTrained && trainRaises then simpleForecasts game days today
  else if inferRaises then simpleForecasts game days today
  else
    (forecastRows lastDate days preds σ).map (fun row =>
      { forecastId := forecastId game row.1
        gameId := game
        forecastDate := row.1
        predictedMetric := "player_count"
        predictedValue := row.2.1
        ciLower := row.2.2.1
        ciUpper := row.2.2.2
        modelVersion := "1.0" })

/-! ## Steam connector (`src/ingestion/steam_api.py`)

`APIConfig.STEAM_API_KEY` comes from the environment: absent ↦ `None`,
set-but-empty ↦ `""`; `if not self.api_key` treats both as
unconfigured. -/

/-- Truthiness of the configured API key. -/
def truthyKey : Option String → Bool
  | none => false
  | some s => s ≠ ""

def steamGameIds : List (String × Nat) :=
  [("dota2", 570), ("csgo", 730), ("gta5", 271590)]

def lookupGameId (game : String) : Option Nat :=
  (steamGameIds.find? (fun p => p.1 = game.toLower)).map (·.2)

/-- An entry produced by `SteamAPIConnector.fetch_data`. -/
structure SteamMatch where
  matchId         : String
  gameId          : String
  gameName        : String
  durationMinutes : Nat
  matchType       : String
  platform        : String
  source          : String
  deriving Repr, DecidableEq

/-- Model of `SteamAPIConnector.fetch_data(game, limit)`: unknown game ↦ `[]`;
no API key ↦ `[]` (explicitly no mock data); with a key, `limit`
entries derived from the store-page game info when `_fetch_game_info`
succeeds, else `[]`; any exception also yields `[]` (modelled by
`gameInfo = none`). -/
def fetchData (apiKey : Option String) (game : String) (limit : Nat)
    (gameInfo : Option String) : List SteamMatch :=
  match lookupGameId game with
  | none => []
  | some gid =>
      if !truthyKey apiKey then []
      else
        match gameInfo with
        | some name =>
            (List.range limit).map (fun i =>
              { matchId :=
                  "steam_" ++ game ++ "_" ++ toString gid ++ "_"
                    ++ toString i
                gameId := game
                gameName := name
                durationMinutes := 0
                matchType := "steam_game"
                platform := "steam"
                source := "steam_api" })
        | none => []

/-- An entry of the Steam `recent_games` response shape, which is also
what `_generate_mock_matches` fabricates. -/
structure SteamRecentGame where
  appid           : Nat
  playtime2weeks  : Nat
  playtimeForever : Nat
  lastPlayed      : Int
  deriving Repr, DecidableEq

/-- Model of `SteamAPIConnector._generate_mock_matches`: `count`
fabricated entries; `random.choice`/`random.randint` draws are modelled
by the draw sequence `rng`, `last_played` is `base_time - i * 86400`. -/
def generateMockMatches (rng : Nat → Nat) (baseTime : Int)
    (count : Nat) : List SteamRecentGame :=
  (List.range count).map (fun i =>
    { appid := rng (3 * i)
      playtime2weeks := rng (3 * i + 1)
      playtimeForever := rng (3 * i + 2)
      lastPlayed := baseTime - i * 86400 })

/-- Model of `SteamAPIConnector.fetch_recent_matches`: with no
API key, or when the request fails or lacks a `"response"` key
(`apiResp = none`), it substitutes `_generate_mock_matches`; otherwise
it returns the response's games list. -/
def fetchRecentMatches (apiKey : Option String)
    (apiResp : Option (List SteamRecentGame)) (rng : Nat → Nat)
    (baseTime : Int) (count : Nat) : List SteamRecentGame :=
  if !truthyKey apiKey then generateMockMatches rng baseTime count
  else
    match apiResp with
    | none => generateMockMatches rng baseTime count
    | some games => games

/-! ## Rate limiter (`src/ingestion/base_connector.py`)

`BaseConnector.__init__` sets `min_request_interval = 60 / rate_limit`
and `last_request_time = 0`; `_rate_limit_check`, called at the top of
every `_make_request`, reads the clock, sleeps when the elapsed time
since the last request is below the minimum interval, and stores a
fresh clock reading.  Wall-clock time is modelled as an exact logical
clock: each call is described by `(δ, ε)` where `δ ≥ 0` is the time
between the previous request and this call's first `time.time()`
reading, and `ε ≥ 0` the time between the end of `time.sleep` and the
second `time.time()` reading. -/

/-- The value `self.min_request_interval = 60 / rate_limit`. -/
def minRequestInterval (rateLimit : ℚ) : ℚ := 60 / rateLimit

/-- The sleep performed by `_rate_limit_check` when the clock reads
`now` and the last request happened at `last`. -/
def sleepFor (mi last now : ℚ) : ℚ :=
  if now - last < mi then mi - (now - last) else 0

/-- One `_rate_limit_check`: the call arrives `c.1 ≥ 0` after the last
request (`current_time` reads `last + c.1`), sleeps as required, and
the stored `last_request_time = time.time()` is read `c.2 ≥ 0` after
the sleep ends. -/
def nextIssue (mi last : ℚ) (c : ℚ × ℚ) : ℚ :=
  (last + c.1) + sleepFor mi last (last + c.1) + c.2

/-- The successive values of `last_request_time` — equivalently the
issue times of the requests — over a sequence of calls described by
their `(δ, ε)` pairs, starting from `last`. -/
def issueTimes (mi last : ℚ) : List (ℚ × ℚ) → List ℚ
  | [] => []
  | c :: rest => nextIssue mi last c :: issueTimes mi (nextIssue mi last c) rest

/-! ## Helper lemmas about the dedup loop -/

theorem dedupGo_sublist (l : List TRec) :
    ∀ seen, (dedupGo seen l).Sublist l := by
  induction l with
  | nil => intro seen; simp [dedupGo]
  | cons r rest ih =>
      intro seen
      cases hm : r.matchId with
      | none => simpa [dedupGo, hm] using (ih seen).cons r
      | some id =>
          by_cases hc : id ≠ "" ∧ id ∉ seen
          · simpa [dedupGo, hm, hc] using (ih (id :: seen)).cons₂ r
          · simpa [dedupGo, hm, hc] using (ih seen).cons r

theorem dedupGo_truthy (l : List TRec) :
    ∀ seen, ∀ r ∈ dedupGo seen l, truthyId r.matchId = true := by
  induction l with
  | nil => intro seen; simp [dedupGo]
  | cons r rest ih =>
      intro seen r' hr'
      cases hm : r.matchId with
      | none =>
          simp only [dedupGo, hm] at hr'
          exact ih seen r' hr'
      | some id =>
          by_cases hc : id ≠ "" ∧ id ∉ seen
          · simp only [dedupGo, hm, if_pos hc, List.mem_cons] at hr'
            rcases hr' with rfl | hr'
            · simp [truthyId, hm, hc.1]
            · exact ih _ r' hr'
          · simp only [dedupGo, hm, if_neg hc] at hr'
            exact ih seen r' hr'

theorem dedupGo_keys (l : List TRec) :
    ∀ seen, ((dedupGo seen l).filterMap TRec.matchId).Nodup ∧
      ∀ s ∈ (dedupGo seen l).filterMap TRec.matchId, s ∉ seen := by
  induction l with
  | nil => intro seen; simp [dedupGo]
  | cons r rest ih =>
      intro seen
      cases hm : r.matchId with
      | none => simpa [dedupGo, hm] using ih seen
      | some id =>
          by_cases hc : id ≠ "" ∧ id ∉ seen
          · have h2 := ih (id :: seen)
            simp only [dedupGo, hm, if_pos hc, List.filterMap_cons,
              List.nodup_cons, List.mem_cons]
            refine ⟨⟨fun hmem => ?_, h2.1⟩, ?_⟩
            · exact (h2.2 id hmem) (List.mem_cons_self id seen)
            · rintro s (rfl | hs)
              · exact hc.2
              · exact fun hseen =>
                  (h2.2 s hs) (List.mem_cons_of_mem id hseen)
          · simpa [dedupGo, hm, if_neg hc] using ih seen

theorem dedupGo_length (l : List TRec) :
    ∀ seen, (dedupGo seen l).length = (newKeys seen l).toFinset.card := by
  induction l with
  | nil => intro seen; simp [dedupGo, newKeys]
  | cons r rest ih =>
      intro seen
      cases hm : r.matchId with
      | none =>
          simpa [dedupGo, newKeys, List.filterMap_cons, hm] using ih seen
      | some id =>
          by_cases hc : id ≠ "" ∧ id ∉ seen
          · have hfilter : newKeys (id :: seen) rest
                = (newKeys seen rest).filter (fun s => s ≠ id) := by
              unfold newKeys
              rw [List.filter_filter]
              apply List.filter_congr
              intro s _
              by_cases h1 : s = "" <;> by_cases h2 : s = id <;>
                by_cases h3 : s ∈ seen <;>
                  simp [h1, h2, h3, List.mem_cons]
            have hkeep : newKeys seen (r :: rest)
                = id :: newKeys seen rest := by
              unfold newKeys
              simp [List.filterMap_cons, hm, List.filter_cons, hc.1, hc.2]
            rw [hkeep]
            simp only [dedupGo, hm, if_pos hc, List.length_cons, ih,
              hfilter, List.toFinset_cons]
            rw [List.toFinset_filter]
            have herase : (newKeys seen rest).toFinset.filter
                (fun s => decide (s ≠ id))
                  = (newKeys seen rest).toFinset.erase id := by
              rw [← Finset.filter_ne']
              apply Finset.filter_congr
              intro s _
              simp
            rw [herase]
            by_cases hmem : id ∈ (newKeys seen rest).toFinset
            · rw [Finset.card_erase_add_one hmem,
                Finset.insert_eq_self.mpr hmem]
            · rw [Finset.erase_eq_of_not_mem hmem,
                Finset.card_insert_of_not_mem hmem]
          · have hskip : newKeys seen (r :: rest) = newKeys seen rest := by
              unfold newKeys
              simp only [List.filterMap_cons, hm, List.filter_cons]
              rw [if_neg]
              simp [hc]
            simpa [dedupGo, hm, if_neg hc, hskip] using ih seen

theorem newKeys_nil_seen (l : List TRec) :
    newKeys [] l = (l.filterMap TRec.matchId).filter (fun s => s ≠ "") := by
  unfold newKeys
  apply List.filter_congr
  intro s _
  simp

theorem keys_length (l : List TRec) :
    ((l.filterMap TRec.matchId).filter (fun s => s ≠ "")).length
      = (l.filter (fun r => truthyId r.matchId)).length := by
  induction l with
  | nil => simp
  | cons r rest ih =>
      cases hm : r.matchId with
      | none =>
          simp only [List.filterMap_cons, hm, List.filter_cons]
          rw [if_neg (by simp [truthyId])]
          exact ih
      | some id =>
          by_cases h : id = ""
          · simp only [List.filterMap_cons, hm, List.filter_cons, h]
            rw [if_neg (by simp), if_neg (by simp [truthyId])]
            exact ih
          · simp only [List.filterMap_cons, hm, List.filter_cons]
            rw [if_pos (by simp [h]), if_pos (by simp [truthyId, h])]
            simpa using ih

theorem length_filter_split (l : List TRec) (p : TRec → Bool) :
    (l.filter p).length + (l.filter (fun r => !(p r))).length = l.length := by
  induction l with
  | nil => simp
  | cons r rest ih =>
      by_cases h : p r = true <;> simp [List.filter_cons, h, ih] <;> omega

/-- **C5** (confirmed). Given records keyed `[A, B, A]` (distinct,
nonempty keys), `deduplicate_matches` returns exactly the first two
records, in order, with a removed-count of `1`; and in general its
output contains no duplicate `match_id` and is a subsequence of the
input (first occurrences, original order). -/
theorem deduplicate_matches_aba (a b : String) (p1 p2 p3 : Nat)
    (hab : a ≠ b) (ha : a ≠ "") (hb : b ≠ "") :
    deduplicateMatches [⟨some a, p1⟩, ⟨some b, p2⟩, ⟨some a, p3⟩]
        = ([⟨some a, p1⟩, ⟨some b, p2⟩], 1) ∧
    ∀ l : List TRec,
      ((deduplicateMatches l).1.filterMap TRec.matchId).Nodup ∧
      ((deduplicateMatches l).1).Sublist l := by
  constructor
  · have hba : b ≠ a := Ne.symm hab
    simp [deduplicateMatches, dedupGo, ha, hb, hab, hba]
  · intro l
    exact ⟨(dedupGo_keys l []).1, dedupGo_sublist l []⟩

/-- Witness for `deduplicate_matches_aba` at `a = "A"`, `b = "B"`. -/
theorem deduplicate_matches_aba_witness :
    deduplicateMatches [⟨some "A", 1⟩, ⟨some "B", 2⟩, ⟨some "A", 3⟩]
        = ([⟨some "A", 1⟩, ⟨some "B", 2⟩], 1) ∧
    ∀ l : List TRec,
      ((deduplicateMatches l).1.filterMap TRec.matchId).Nodup ∧
      ((deduplicateMatches l).1).Sublist l :=
  deduplicate_matches_aba "A" "B" 1 2 3 (by decide) (by decide) (by decide)

/-- **C10** (confirmed). `deduplicate_matches` drops every record whose
`match_id` is missing, `None`, or empty: all surviving records have a
truthy key, the output length is the number of distinct truthy keys,
and when the input contains `k ≥ 1` unkeyed records the output is
shorter than (distinct keyed records + k) while the reported
removed-count includes all `k` of them. -/
theorem deduplicate_matches_drops_unkeyed (l : List TRec) :
    (∀ r ∈ (deduplicateMatches l).1, truthyId r.matchId = true) ∧
    (deduplicateMatches l).1.length = distinctKeyedIds l ∧
    (deduplicateMatches l).2 = l.length - distinctKeyedIds l ∧
    (1 ≤ unkeyedCount l →
      (deduplicateMatches l).1.length < distinctKeyedIds l + unkeyedCount l ∧
      unkeyedCount l ≤ (deduplicateMatches l).2) := by
  have hlen : (deduplicateMatches l).1.length = distinctKeyedIds l := by
    show (dedupGo [] l).length = distinctKeyedIds l
    rw [dedupGo_length l [], newKeys_nil_seen]
    rfl
  have hbound : distinctKeyedIds l + unkeyedCount l ≤ l.length := by
    have h1 : distinctKeyedIds l
        ≤ ((l.filterMap TRec.matchId).filter (fun s => s ≠ "")).length :=
      List.toFinset_card_le _
    have h2 := keys_length l
    have h3 := length_filter_split l (fun r => truthyId r.matchId)
    unfold unkeyedCount
    omega
  refine ⟨fun r hr => dedupGo_truthy l [] r hr, hlen, ?_, ?_⟩
  · show l.length - (dedupGo [] l).length = l.length - distinctKeyedIds l
    rw [show (dedupGo [] l).length = distinctKeyedIds l from hlen]
  · intro hk
    constructor
    · omega
    · show unkeyedCount l ≤ l.length - (dedupGo [] l).length
      rw [show (dedupGo [] l).length = distinctKeyedIds l from hlen]
      omega

/-- Witness for `deduplicate_matches_drops_unkeyed` on a batch with two
unkeyed records (one missing key, one empty) and a duplicated key. -/
theorem deduplicate_matches_drops_unkeyed_witness :
    (∀ r ∈ (deduplicateMatches
        [⟨none, 0⟩, ⟨some "", 1⟩, ⟨some "A", 2⟩, ⟨some "A", 3⟩]).1,
      truthyId r.matchId = true) ∧
    (deduplicateMatches
        [⟨none, 0⟩, ⟨some "", 1⟩, ⟨some "A", 2⟩, ⟨some "A", 3⟩]).1.length
      = distinctKeyedIds
          [⟨none, 0⟩, ⟨some "", 1⟩, ⟨some "A", 2⟩, ⟨some "A", 3⟩] ∧
    (deduplicateMatches
        [⟨none, 0⟩, ⟨some "", 1⟩, ⟨some "A", 2⟩, ⟨some "A", 3⟩]).2
      = ([⟨none, 0⟩, ⟨some "", 1⟩, ⟨some "A", 2⟩,
          (⟨some "A", 3⟩ : TRec)] : List TRec).length
        - distinctKeyedIds
            [⟨none, 0⟩, ⟨some "", 1⟩, ⟨some "A", 2⟩, ⟨some "A", 3⟩] ∧
    (1 ≤ unkeyedCount
        [⟨none, 0⟩, ⟨some "", 1⟩, ⟨some "A", 2⟩, ⟨some "A", 3⟩] →
      (deduplicateMatches
          [⟨none, 0⟩, ⟨some "", 1⟩, ⟨some "A", 2⟩, ⟨some "A", 3⟩]).1.length
        < distinctKeyedIds
            [⟨none, 0⟩, ⟨some "", 1⟩, ⟨some "A", 2⟩, ⟨some "A", 3⟩]
          + unkeyedCount
              [⟨none, 0⟩, ⟨some "", 1⟩, ⟨some "A", 2⟩, ⟨some "A", 3⟩] ∧
      unkeyedCount [⟨none, 0⟩, ⟨some "", 1⟩, ⟨some "A", 2⟩, ⟨some "A", 3⟩]
        ≤ (deduplicateMatches
            [⟨none, 0⟩, ⟨some "", 1⟩, ⟨some "A", 2⟩, ⟨some "A", 3⟩]).2) :=
  deduplicate_matches_drops_unkeyed
    [⟨none, 0⟩, ⟨some "", 1⟩, ⟨some "A", 2⟩, ⟨some "A", 3⟩]

/-! ## Validation bounds (C6) -/

/-- **C6** (confirmed). With all other required fields present and
well-typed, pydantic validation accepts `duration_minutes = 300` and
rejects `301` and `-1`; in general any duration outside `[0, 300]` is
rejected. -/
theorem validate_match_duration_bounds (m : MatchInput)
    (h1 : m.matchId.isSome = true) (h2 : m.gameId.isSome = true)
    (h3 : m.matchDate.isSome = true) (h4 : m.matchType.isSome = true) :
    validateMatchData { m with durationMinutes := some 300 } = true ∧
    validateMatchData { m with durationMinutes := some 301 } = false ∧
    validateMatchData { m with durationMinutes := some (-1) } = false ∧
    ∀ d : Int, (d < 0 ∨ 300 < d) →
      validateMatchData { m with durationMinutes := some d } = false := by
  refine ⟨?_, ?_, ?_, ?_⟩
  · simp [validateMatchData, h1, h2, h3, h4]
  · simp [validateMatchData, h1, h2, h3, h4]
  · simp [validateMatchData, h1, h2, h3, h4]
  · intro d hd
    have : (decide (d < 0) || decide (300 < d)) = true := by
      rcases hd with h | h <;> simp [h]
    simp [validateMatchData, h1, h2, h3, h4, this]

/-- Witness for `validate_match_duration_bounds` at a fully populated
record. -/
theorem validate_match_duration_bounds_witness :
    validateMatchData
      ⟨some "m1", some "dota2", some 0, some 300, some "ranked"⟩ = true ∧
    validateMatchData
      ⟨some "m1", some "dota2", some 0, some 301, some "ranked"⟩ = false ∧
    validateMatchData
      ⟨some "m1", some "dota2", some 0, some (-1), some "ranked"⟩ = false ∧
    ∀ d : Int, (d < 0 ∨ 300 < d) →
      validateMatchData
        ⟨some "m1", some "dota2", some 0, some d, some "ranked"⟩ = false :=
  validate_match_duration_bounds
    ⟨some "m1", some "dota2", some 0, none, some "ranked"⟩
    (by decide) (by decide) (by decide) (by decide)

/-! ## Duration normalization (C8) -/

theorem dget_dset_same (d : Dict) (k : String) (v : Value) :
    dget (dset d k v) k = some v := by
  induction d with
  | nil => simp [dset, dget]
  | cons p rest ih =>
      obtain ⟨k', v'⟩ := p
      by_cases h : k' = k <;> simp [dset, dget, h, ih]

/-- **C8** (confirmed). In `DataValidator.validate_match_data`, a
numeric `duration_minutes` strictly greater than 60 is treated as
seconds and integer-divided by 60; a value at most 60 is kept, only
truncated to an integer. -/
theorem duration_normalization (mapping : List (String × String))
    (parseIso : String → Option ℚ) (data : Dict) (q : ℚ)
    (hq : dget (coerceDate parseIso (mapFields mapping data))
        "duration_minutes" = some (.num q)) :
    dget (dvValidateMatchData mapping parseIso data) "duration_minutes"
      = some (.num (if 60 < q then (⌊q / 60⌋ : ℚ) else (pyInt q : ℚ))) := by
  unfold dvValidateMatchData normalizeDuration
  rw [hq, dget_dset_same]
  by_cases h : 60 < q
  · have h60 : (0 : ℚ) ≤ q / 60 := by
      have hq0 : (0 : ℚ) < q := lt_trans (by norm_num) h
      positivity
    simp [h, pyInt, h60]
  · simp [h]

/-- Witness for `duration_normalization`: a raw `duration` of 120
(seconds) mapped onto `duration_minutes` becomes 2 (minutes). -/
theorem duration_normalization_witness :
    dget (dvValidateMatchData [("duration", "duration_minutes")]
        (fun _ => none) [("duration", .num 120)]) "duration_minutes"
      = some (.num (if 60 < (120 : ℚ) then ((⌊(120 : ℚ) / 60⌋ : ℤ) : ℚ)
          else (pyInt 120 : ℚ))) :=
  duration_normalization [("duration", "duration_minutes")]
    (fun _ => none) [("duration", .num 120)] 120 (by rfl)

/-! ## Steam connector (C7) -/

/-- **C7** (counterexample to the claim as stated). With no API key
configured, the public `fetch_recent_matches` does *not* return an
empty result: it substitutes ten fabricated mock entries. -/
theorem fetch_recent_matches_not_empty_without_key :
    fetchRecentMatches none none (fun _ => 0) 0 10
        = generateMockMatches (fun _ => 0) 0 10 ∧
    (fetchRecentMatches none none (fun _ => 0) 0 10).length = 10 ∧
    fetchRecentMatches none none (fun _ => 0) 0 10 ≠ [] := by
  refine ⟨rfl, rfl, ?_⟩
  decide

/-- **C7** (amended). With no API credential configured, `fetch_data`
returns an empty result for every game and limit and fabricates
nothing; `fetch_player_stats` and `fetch_recent_matches`, however,
substitute mock data: `fetch_recent_matches` returns the
`_generate_mock_matches` output — `count` fabricated entries — instead
of an empty result. -/
theorem fetch_data_empty_without_key (apiKey : Option String)
    (hk : truthyKey apiKey = false) :
    (∀ (game : String) (limit : Nat) (gameInfo : Option String),
      fetchData apiKey game limit gameInfo = []) ∧
    (∀ (apiResp : Option (List SteamRecentGame)) (rng : Nat → Nat)
        (baseTime : Int) (count : Nat),
      fetchRecentMatches apiKey apiResp rng baseTime count
          = generateMockMatches rng baseTime count ∧
      (fetchRecentMatches apiKey apiResp rng baseTime count).length
          = count) := by
  constructor
  · intro game limit gameInfo
    unfold fetchData
    cases h : lookupGameId game with
    | none => rfl
    | some gid => simp [hk]
  · intro apiResp rng baseTime count
    unfold fetchRecentMatches
    rw [hk]
    exact ⟨rfl, by simp [generateMockMatches]⟩

/-- Witness for `fetch_data_empty_without_key` with an unset key. -/
theorem fetch_data_empty_without_key_witness :
    (∀ (game : String) (limit : Nat) (gameInfo : Option String),
      fetchData none game limit gameInfo = []) ∧
    (∀ (apiResp : Option (List SteamRecentGame)) (rng : Nat → Nat)
        (baseTime : Int) (count : Nat),
      fetchRecentMatches none apiResp rng baseTime count
          = generateMockMatches rng baseTime count ∧
      (fetchRecentMatches none apiResp rng baseTime count).length
          = count) :=
  fetch_data_empty_without_key none (by decide)

/-! ## Loader behavior on a constraint-violating batch (C1) -/

/-- **C1** (code bug). Ten otherwise-valid records with distinct keys,
where record #5 violates a storage constraint, loaded into a fresh
store with the default `batch_size = 100`: because sessions have
`autoflush=False`, the violation surfaces only at the batch
`session.commit()`, whose handler adds `len(batch)` to the error count
— the run reports `inserted = 10, errors = 10` and persists *nothing*,
not `inserted/updated = 9, errors = 1` with nine records persisted as
the specification claims. -/
theorem load_matches_batch_lost_on_constraint_violation :
    loadMatches 100 []
      [⟨"m01", 1, false, false⟩, ⟨"m02", 2, false, false⟩,
       ⟨"m03", 3, false, false⟩, ⟨"m04", 4, false, false⟩,
       ⟨"m05", 5, true, false⟩, ⟨"m06", 6, false, false⟩,
       ⟨"m07", 7, false, false⟩, ⟨"m08", 8, false, false⟩,
       ⟨"m09", 9, false, false⟩, ⟨"m10", 10, false, false⟩]
      = ([], ⟨10, 0, 10⟩) := by decide

/-! ## Loader idempotence (C2) -/

/-- **C2** (counterexample to the claim as stated). For the
single-record list whose record violates a storage constraint, the
first run persists nothing (`inserted = 1, errors = 1` — the commit
fails), so the second identical run again reports `inserted = 1`, not
zero, and the record is not counted as an update. -/
theorem load_matches_idempotence_counterexample :
    loadMatches 100 [] [⟨"A", 0, true, false⟩] = ([], ⟨1, 0, 1⟩) ∧
    (loadMatches 100 (loadMatches 100 [] [⟨"A", 0, true, false⟩]).1
        [⟨"A", 0, true, false⟩]).2.inserted = 1 ∧
    ¬ (loadMatches 100 (loadMatches 100 [] [⟨"A", 0, true, false⟩]).1
        [⟨"A", 0, true, false⟩]).2.inserted = 0 := by decide

/-! ## Helper lemmas about the loader -/

theorem applyMods_nil (dur : List Rec) : applyMods [] dur = dur := by
  unfold applyMods findMod
  simp

theorem findMod_putMod (mods : List (String × Rec)) (k' k : String)
    (r : Rec) :
    findMod (putMod mods k' r) k
      = if k' = k then some r else findMod mods k := by
  induction mods with
  | nil => by_cases h : k' = k <;> simp [putMod, findMod, h]
  | cons p rest ih =>
      obtain ⟨k0, r0⟩ := p
      by_cases h0 : k0 = k'
      · subst h0
        by_cases h : k0 = k <;> simp [putMod, findMod, h, ih]
      · by_cases h : k0 = k
        · subst h
          have hne : ¬ k' = k0 := fun hh => h0 hh.symm
          simp [putMod, findMod, h0, hne, ih]
        · simp [putMod, findMod, h0, h, ih]

theorem putMod_mem (mods : List (String × Rec)) (k : String) (r : Rec) :
    ∀ m ∈ putMod mods k r, m = (k, r) ∨ m ∈ mods := by
  induction mods with
  | nil => simp [putMod]
  | cons p rest ih =>
      obtain ⟨k0, r0⟩ := p
      by_cases h : k0 = k
      · simp only [putMod, if_pos h, List.mem_cons]
        rintro m (rfl | hm)
        · exact Or.inl rfl
        · exact Or.inr (Or.inr hm)
      · simp only [putMod, if_neg h, List.mem_cons]
        rintro m (rfl | hm)
        · exact Or.inr (Or.inl rfl)
        · rcases ih m hm with h' | h'
          · exact Or.inl h'
          · exact Or.inr (Or.inr h')

theorem putMod_fold_mem (batch : List Rec) :
    ∀ (mods : List (String × Rec)) m,
      m ∈ batch.foldl (fun acc r => putMod acc r.matchId r) mods →
      (m.2 ∈ batch ∧ m.2.matchId = m.1) ∨ m ∈ mods := by
  induction batch with
  | nil => simp
  | cons b rest ih =>
      intro mods m hm
      simp only [List.foldl_cons] at hm
      rcases ih (putMod mods b.matchId b) m hm with h | h
      · exact Or.inl ⟨List.mem_cons_of_mem _ h.1, h.2⟩
      · rcases putMod_mem mods b.matchId b m h with rfl | h'
        · exact Or.inl ⟨List.mem_cons_self _ _, rfl⟩
        · exact Or.inr h'

theorem applyMods_id (mods : List (String × Rec)) (dur : List Rec)
    (h : ∀ d ∈ dur, ∀ r, findMod mods d.matchId = some r → r = d) :
    applyMods mods dur = dur := by
  induction dur with
  | nil => simp [applyMods]
  | cons d rest ih =>
      unfold applyMods
      simp only [List.map_cons]
      have hd : (findMod mods d.matchId).getD d = d := by
        cases hf : findMod mods d.matchId with
        | none => rfl
        | some r => simp [h d (List.mem_cons_self d rest) r hf]
      rw [hd]
      have := ih (fun d' hd' r hf => h d' (List.mem_cons_of_mem d hd') r hf)
      unfold applyMods at this
      rw [this]

theorem mem_of_nodup_map_inj (dur : List Rec)
    (hnd : (dur.map Rec.matchId).Nodup) (r d : Rec)
    (hr : r ∈ dur) (hd : d ∈ dur) (h : r.matchId = d.matchId) : r = d :=
  List.inj_on_of_nodup_map hnd hr hd h

theorem foldl_insert_phase (batch : List Rec) :
    ∀ (dur pend : List Rec) (c : Counts),
      (∀ r ∈ batch, r.raises = false) →
      (((dur ++ pend) ++ batch).map Rec.matchId).Nodup →
      batch.foldl processRecord (⟨dur, [], pend⟩, c)
        = (⟨dur, [], pend ++ batch⟩,
           { c with inserted := c.inserted + batch.length }) := by
  induction batch with
  | nil => intro dur pend c _ _; simp
  | cons r rest ih =>
      intro dur pend c hra hnd
      have hr : r.raises = false := hra r (List.mem_cons_self r rest)
      have hnotin : r.matchId ∉ dur.map Rec.matchId := by
        intro hmem
        rw [List.map_append, List.nodup_append] at hnd
        exact hnd.2.2
          (by rw [List.map_append]; exact List.mem_append.mpr (Or.inl hmem))
          (by simp)
      have hstep : processRecord (⟨dur, [], pend⟩, c) r
          = (⟨dur, [], pend ++ [r]⟩,
             { c with inserted := c.inserted + 1 }) := by
        simp [processRecord, hr, hnotin]
      have hnd' : (((dur ++ (pend ++ [r])) ++ rest).map Rec.matchId).Nodup := by
        have : (dur ++ (pend ++ [r])) ++ rest = (dur ++ pend) ++ (r :: rest) := by
          simp
        rw [this]
        exact hnd
      have := ih dur (pend ++ [r]) { c with inserted := c.inserted + 1 }
        (fun r' hr' => hra r' (List.mem_cons_of_mem r hr')) hnd'
      have harith : c.inserted + 1 + rest.length
          = c.inserted + (rest.length + 1) := by omega
      simp only [List.foldl_cons, hstep, this, List.append_assoc,
        List.singleton_append, List.length_cons, harith]

theorem processBatch_insert (batch dur : List Rec) (c : Counts)
    (hra : ∀ r ∈ batch, r.raises = false)
    (hv : ∀ r ∈ batch, r.violates = false)
    (hnd : ((dur ++ batch).map Rec.matchId).Nodup) :
    processBatch (⟨dur, [], []⟩, c) batch
      = (⟨dur ++ batch, [], []⟩,
         { c with inserted := c.inserted + batch.length }) := by
  unfold processBatch
  have hnd0 : (((dur ++ []) ++ batch).map Rec.matchId).Nodup := by
    simpa using hnd
  rw [foldl_insert_phase batch dur [] c hra hnd0]
  have hok : CommitOk ⟨dur, [], [] ++ batch⟩ := by
    refine ⟨?_, ?_, ?_, ?_⟩
    · rw [List.map_append, List.nodup_append] at hnd
      simpa using hnd.2.1
    · intro r hr
      rw [List.map_append, List.nodup_append] at hnd
      simp only [List.nil_append] at hr
      exact fun hmem => hnd.2.2 hmem (List.mem_map_of_mem Rec.matchId hr)
    · intro r hr
      exact hv r (by simpa using hr)
    · intro m hm
      simp at hm
  unfold commitBatch
  simp only [if_pos hok]
  simp [applyMods_nil]

theorem loadChunks_insert (bs : Nat) (hbs : 0 < bs) :
    ∀ (fuel : Nat) (l : List Rec) (dur : List Rec) (c : Counts),
      l.length ≤ fuel →
      (∀ r ∈ l, r.violates = false ∧ r.raises = false) →
      ((dur ++ l).map Rec.matchId).Nodup →
      (chunksOfAux bs fuel l).foldl processBatch (⟨dur, [], []⟩, c)
        = (⟨dur ++ l, [], []⟩,
           { c with inserted := c.inserted + l.length }) := by
  intro fuel
  induction fuel with
  | zero =>
      intro l dur c hlen _ _
      have : l = [] := List.length_eq_zero.mp (Nat.le_zero.mp hlen)
      subst this
      simp [chunksOfAux]
  | succ fuel ih =>
      intro l dur c hlen hval hnd
      cases l with
      | nil => simp [chunksOfAux]
      | cons x xs =>
          set l := x :: xs with hl
          have hchunk : chunksOfAux bs (fuel + 1) l
              = l.take bs :: chunksOfAux bs fuel (l.drop bs) := rfl
          rw [hchunk]
          simp only [List.foldl_cons]
          have htail : ∀ r ∈ l.drop bs, r.violates = false ∧ r.raises = false :=
            fun r hr => hval r (List.drop_subset bs l hr)
          have htake : ∀ r ∈ l.take bs, r.violates = false ∧ r.raises = false :=
            fun r hr => hval r (List.take_subset bs l hr)
          have hndtake : ((dur ++ l.take bs).map Rec.matchId).Nodup := by

            have hsub : (dur ++ l.take bs).Sublist (dur ++ l) :=
              List.Sublist.append (List.Sublist.refl dur) (List.take_sublist bs l)
            exact List.Nodup.sublist (List.Sublist.map Rec.matchId hsub) hnd
          rw [processBatch_insert (l.take bs) dur c
            (fun r hr => (htake r hr).2) (fun r hr => (htake r hr).1) hndtake]
          have hnd' : (((dur ++ l.take bs) ++ l.drop bs).map Rec.matchId).Nodup := by
            rw [List.append_assoc, List.take_append_drop]
            exact hnd
          have hlen' : (l.drop bs).length ≤ fuel := by
            rw [List.length_drop]
            have : 1 ≤ l.length := by simp [hl]
            omega
          rw [ih (l.drop bs) (dur ++ l.take bs)
            { c with inserted := c.inserted + (l.take bs).length }
            hlen' htail hnd']
          rw [List.append_assoc, List.take_append_drop]
          simp only [Prod.mk.injEq, Counts.mk.injEq, List.length_take,
            List.length_drop, and_true, true_and]
          omega

/-- First run of `load_matches` on a fresh store: with pairwise-distinct
keys and no failing record, every record is inserted and committed. -/
theorem loadMatches_fresh (bs : Nat) (recs : List Rec) (hbs : 0 < bs)
    (hval : ∀ r ∈ recs, r.violates = false ∧ r.raises = false)
    (hnd : (recs.map Rec.matchId).Nodup) :
    loadMatches bs [] recs = (recs, ⟨recs.length, 0, 0⟩) := by
  unfold loadMatches chunksOf
  rw [loadChunks_insert bs hbs recs.length recs [] ⟨0, 0, 0⟩ (le_refl _)
    hval (by simpa using hnd)]
  simp

theorem foldl_update_phase (batch : List Rec) :
    ∀ (dur : List Rec) (mods : List (String × Rec)) (c : Counts),
      (∀ r ∈ batch, r.raises = false) →
      (∀ r ∈ batch, r.matchId ∈ dur.map Rec.matchId) →
      batch.foldl processRecord (⟨dur, mods, []⟩, c)
        = (⟨dur, batch.foldl (fun acc r => putMod acc r.matchId r) mods, []⟩,
           { c with updated := c.updated + batch.length }) := by
  induction batch with
  | nil => intro dur mods c _ _; simp
  | cons r rest ih =>
      intro dur mods c hra hmem
      have hr : r.raises = false := hra r (List.mem_cons_self r rest)
      have hin : r.matchId ∈ dur.map Rec.matchId :=
        hmem r (List.mem_cons_self r rest)
      have hstep : processRecord (⟨dur, mods, []⟩, c) r
          = (⟨dur, putMod mods r.matchId r, []⟩,
             { c with updated := c.updated + 1 }) := by
        simp [processRecord, hr, hin]
      have := ih dur (putMod mods r.matchId r)
        { c with updated := c.updated + 1 }
        (fun r' hr' => hra r' (List.mem_cons_of_mem r hr'))
        (fun r' hr' => hmem r' (List.mem_cons_of_mem r hr'))
      have harith : c.updated + 1 + rest.length
          = c.updated + (rest.length + 1) := by omega
      simp only [List.foldl_cons, hstep, this, List.length_cons, harith]

theorem processBatch_update (batch dur : List Rec) (c : Counts)
    (hra : ∀ r ∈ batch, r.raises = false)
    (hv : ∀ r ∈ batch, r.violates = false)
    (hmem : ∀ r ∈ batch, r ∈ dur)
    (hnd : (dur.map Rec.matchId).Nodup) :
    processBatch (⟨dur, [], []⟩, c) batch
      = (⟨dur, [], []⟩, { c with updated := c.updated + batch.length }) := by
  unfold processBatch
  rw [foldl_update_phase batch dur [] c hra
    (fun r hr => List.mem_map_of_mem Rec.matchId (hmem r hr))]
  have hmods : ∀ m ∈ batch.foldl (fun acc r => putMod acc r.matchId r)
      ([] : List (String × Rec)), m.2 ∈ batch ∧ m.2.matchId = m.1 := by
    intro m hm
    rcases putMod_fold_mem batch [] m hm with h | h
    · exact h
    · simp at h
  have hok : CommitOk ⟨dur,
      batch.foldl (fun acc r => putMod acc r.matchId r) [], []⟩ := by
    refine ⟨by simp, by simp, by simp, ?_⟩
    intro m hm
    exact hv m.2 (hmods m hm).1
  unfold commitBatch
  simp only [if_pos hok]
  have happly : applyMods
      (batch.foldl (fun acc r => putMod acc r.matchId r) []) dur = dur := by
    apply applyMods_id
    intro d hd r hf
    have hput : (d.matchId, r)
        ∈ batch.foldl (fun acc r => putMod acc r.matchId r) [] := by
      clear hmods hok
      revert hf
      generalize batch.foldl (fun acc r => putMod acc r.matchId r) [] = mods
      intro hf
      induction mods with
      | nil => simp [findMod] at hf
      | cons p rest ihm =>
          obtain ⟨k0, r0⟩ := p
          by_cases h : k0 = d.matchId
          · subst h
            simp [findMod] at hf
            subst hf
            exact List.mem_cons_self _ _
          · simp [findMod, h] at hf
            exact List.mem_cons_of_mem _ (ihm hf)
    have h2 := hmods (d.matchId, r) hput
    exact mem_of_nodup_map_inj dur hnd r d (hmem r h2.1) hd h2.2
  rw [happly]
  simp

theorem loadChunks_update (bs : Nat) (hbs : 0 < bs) :
    ∀ (fuel : Nat) (l : List Rec) (dur : List Rec) (c : Counts),
      l.length ≤ fuel →
      (∀ r ∈ l, r.violates = false ∧ r.raises = false) →
      (∀ r ∈ l, r ∈ dur) →
      (dur.map Rec.matchId).Nodup →
      (chunksOfAux bs fuel l).foldl processBatch (⟨dur, [], []⟩, c)
        = (⟨dur, [], []⟩, { c with updated := c.updated + l.length }) := by
  intro fuel
  induction fuel with
  | zero =>
      intro l dur c hlen _ _ _
      have : l = [] := List.length_eq_zero.mp (Nat.le_zero.mp hlen)
      subst this
      simp [chunksOfAux]
  | succ fuel ih =>
      intro l dur c hlen hval hmem hnd
      cases l with
      | nil => simp [chunksOfAux]
      | cons x xs =>
          set l := x :: xs with hl
          have hchunk : chunksOfAux bs (fuel + 1) l
              = l.take bs :: chunksOfAux bs fuel (l.drop bs) := rfl
          rw [hchunk]
          simp only [List.foldl_cons]
          rw [processBatch_update (l.take bs) dur c
            (fun r hr => (hval r (List.take_subset bs l hr)).2)
            (fun r hr => (hval r (List.take_subset bs l hr)).1)
            (fun r hr => hmem r (List.take_subset bs l hr)) hnd]
          have hlen' : (l.drop bs).length ≤ fuel := by
            rw [List.length_drop]
            have : 1 ≤ l.length := by simp [hl]
            omega
          rw [ih (l.drop bs) dur
            { c with updated := c.updated + (l.take bs).length } hlen'
            (fun r hr => hval r (List.drop_subset bs l hr))
            (fun r hr => hmem r (List.drop_subset bs l hr)) hnd]
          simp only [Prod.mk.injEq, Counts.mk.injEq, List.length_take,
            List.length_drop, and_true, true_and]
          omega

/-- Second run of `load_matches` with the same records over a store
already holding exactly those records: every record takes the update
path and the store is unchanged. -/
theorem loadMatches_rerun (bs : Nat) (recs : List Rec) (hbs : 0 < bs)
    (hval : ∀ r ∈ recs, r.violates = false ∧ r.raises = false)
    (hnd : (recs.map Rec.matchId).Nodup) :
    loadMatches bs recs recs = (recs, ⟨0, recs.length, 0⟩) := by
  unfold loadMatches chunksOf
  rw [loadChunks_update bs hbs recs.length recs recs ⟨0, 0, 0⟩ (le_refl _)
    hval (fun r hr => hr) hnd]
  simp

/-- **C2** (amended). For records with pairwise-distinct `match_id`s,
none violating a storage constraint and none raising during
processing, running `load_matches` twice with identical input from an
empty store yields the same final stored state as running it once, and
the second run reports zero inserts with every record counted as an
update and zero errors. -/
theorem load_matches_idempotent (bs : Nat) (recs : List Rec)
    (hbs : 0 < bs)
    (hval : ∀ r ∈ recs, r.violates = false ∧ r.raises = false)
    (hnd : (recs.map Rec.matchId).Nodup) :
    (loadMatches bs (loadMatches bs [] recs).1 recs).1
      = (loadMatches bs [] recs).1 ∧
    (loadMatches bs (loadMatches bs [] recs).1 recs).2
      = ⟨0, recs.length, 0⟩ := by
  have h1 := loadMatches_fresh bs recs hbs hval hnd
  have h2 := loadMatches_rerun bs recs hbs hval hnd
  have h1' : (loadMatches bs [] recs).1 = recs := by rw [h1]
  rw [h1', h2]
  exact ⟨rfl, rfl⟩

/-- Witness for `load_matches_idempotent` on two valid records with
distinct keys and the default batch size. -/
theorem load_matches_idempotent_witness :
    (loadMatches 100
        (loadMatches 100 [] [⟨"A", 1, false, false⟩, ⟨"B", 2, false, false⟩]).1
        [⟨"A", 1, false, false⟩, ⟨"B", 2, false, false⟩]).1
      = (loadMatches 100 [] [⟨"A", 1, false, false⟩, ⟨"B", 2, false, false⟩]).1 ∧
    (loadMatches 100
        (loadMatches 100 [] [⟨"A", 1, false, false⟩, ⟨"B", 2, false, false⟩]).1
        [⟨"A", 1, false, false⟩, ⟨"B", 2, false, false⟩]).2
      = ⟨0, ([⟨"A", 1, false, false⟩,
              (⟨"B", 2, false, false⟩ : Rec)] : List Rec).length, 0⟩ :=
  load_matches_idempotent 100
    [⟨"A", 1, false, false⟩, ⟨"B", 2, false, false⟩]
    (by decide) (by decide) (by decide)

/-! ## Forecast fallback and interval invariant (C3, C4) -/

/-- **C3** (confirmed). For every game and `days ≥ 1`, whenever the
historical data has fewer than 7 distinct days, or training runs and
raises, or inference raises, `generate_player_count_forecasts` returns
exactly the `days` naive forecasts — each predicting the fixed baseline
1000 with bounds 800 and 1200 — and, the embedding being total, no
exception reaches the caller. -/
theorem forecast_fallback_trigger (game : String) (days : Nat)
    (hist : List (Nat × Nat)) (isTrained trainRaises inferRaises : Bool)
    (preds : List ℚ) (σ : ℚ) (today lastDate : Nat)
    (hdays : 1 ≤ days)
    (htrig : hist.length < 7 ∨ (isTrained = false ∧ trainRaises = true)
      ∨ inferRaises = true) :
    generatePlayerCountForecasts game days hist isTrained trainRaises
        inferRaises preds σ today lastDate
      = simpleForecasts game days today ∧
    (generatePlayerCountForecasts game days hist isTrained trainRaises
        inferRaises preds σ today lastDate).length = days ∧
    ∀ r ∈ generatePlayerCountForecasts game days hist isTrained
        trainRaises inferRaises preds σ today lastDate,
      r.predictedValue = 1000 ∧ r.ciLower = 800 ∧ r.ciUpper = 1200 := by
  have heq : generatePlayerCountForecasts game days hist isTrained
      trainRaises inferRaises preds σ today lastDate
        = simpleForecasts game days today := by
    unfold generatePlayerCountForecasts
    split_ifs with h1 h2 h3
    · rfl
    · rfl
    · rfl
    · exfalso
      rcases htrig with h | ⟨hi, ht⟩ | h
      · exact h1 h
      · exact h2 (by simp [hi, ht])
      · exact h3 (by simp [h])
  refine ⟨heq, ?_, ?_⟩
  · rw [heq]
    simp [simpleForecasts]
  · rw [heq]
    intro r hr
    simp only [simpleForecasts, List.mem_map, List.mem_range] at hr
    obtain ⟨i, _, rfl⟩ := hr
    norm_num

/-- Witness for `forecast_fallback_trigger`: empty history, one day. -/
theorem forecast_fallback_trigger_witness :
    generatePlayerCountForecasts "dota2" 1 [] false false false [] 0 0 0
      = simpleForecasts "dota2" 1 0 ∧
    (generatePlayerCountForecasts "dota2" 1 [] false false false [] 0 0
        0).length = 1 ∧
    ∀ r ∈ generatePlayerCountForecasts "dota2" 1 [] false false false []
        0 0 0,
      r.predictedValue = 1000 ∧ r.ciLower = 800 ∧ r.ciUpper = 1200 :=
  forecast_fallback_trigger "dota2" 1 [] false false false [] 0 0 0
    (by norm_num) (Or.inl (by norm_num))

/-- **C4** (confirmed). Every record produced by
`generate_player_count_forecasts` — on the model path (where `σ` is the
`std_dev` the code computes and the model's predictions are nonnegative,
as they are for a regression fit on nonnegative player counts) or on
the naive path — satisfies
`confidence_interval_lower ≤ predicted_value ≤ confidence_interval_upper`. -/
theorem forecast_interval_invariant (game : String) (days : Nat)
    (hist : List (Nat × Nat)) (isTrained trainRaises inferRaises : Bool)
    (preds : List ℚ) (σ : ℚ) (today lastDate : Nat)
    (hstd : forecasterStdSpec preds σ)
    (hnn : ∀ p ∈ preds, 0 ≤ p) :
    ∀ r ∈ generatePlayerCountForecasts game days hist isTrained
        trainRaises inferRaises preds σ today lastDate,
      r.ciLower ≤ r.predictedValue ∧ r.predictedValue ≤ r.ciUpper := by
  have hσ : 0 ≤ σ := by
    unfold forecasterStdSpec at hstd
    split_ifs at hstd with hlen
    · exact hstd.1
    · rw [hstd]
      cases preds with
      | nil => simp
      | cons p rest =>
          have hp : 0 ≤ p := hnn p (List.mem_cons_self p rest)
          simpa using mul_nonneg hp (by norm_num : (0:ℚ) ≤ 1 / 10)
  have hband : (0:ℚ) ≤ 196 / 100 * σ :=
    mul_nonneg (by norm_num) hσ
  intro r hr
  unfold generatePlayerCountForecasts at hr
  split_ifs at hr
  case _ | _ | _ =>
    simp only [simpleForecasts, List.mem_map, List.mem_range] at hr
    obtain ⟨i, _, rfl⟩ := hr
    norm_num
  case _ =>
    simp only [forecastRows, List.map_map, List.mem_map] at hr
    obtain ⟨⟨d, p⟩, hmem, rfl⟩ := hr
    have hp : 0 ≤ p := hnn p (List.of_mem_zip hmem).2
    constructor
    · simp only [Function.comp]
      linarith
    · simp only [Function.comp]
      linarith

/-- Witness for `forecast_interval_invariant`: the one record produced
on the naive path (empty history, one day) satisfies the band
invariant. -/
theorem forecast_interval_invariant_witness :
    (⟨forecastId "dota2" 1, "dota2", 1, "player_count", 1000,
        1000 * (8 / 10), 1000 * (12 / 10), "1.0"⟩ : FRec).ciLower
      ≤ (⟨forecastId "dota2" 1, "dota2", 1, "player_count", 1000,
          1000 * (8 / 10), 1000 * (12 / 10), "1.0"⟩ : FRec).predictedValue ∧
    (⟨forecastId "dota2" 1, "dota2", 1, "player_count", 1000,
        1000 * (8 / 10), 1000 * (12 / 10), "1.0"⟩ : FRec).predictedValue
      ≤ (⟨forecastId "dota2" 1, "dota2", 1, "player_count", 1000,
          1000 * (8 / 10), 1000 * (12 / 10), "1.0"⟩ : FRec).ciUpper :=
  forecast_interval_invariant "dota2" 1 [] false false false [0] 0 0 0
    (by norm_num [forecasterStdSpec])
    (by norm_num)
    ⟨forecastId "dota2" 1, "dota2", 1, "player_count", 1000,
      1000 * (8 / 10), 1000 * (12 / 10), "1.0"⟩
    (by simp [generatePlayerCountForecasts, simpleForecasts])

/-! ## Rate limiter (C9) -/

theorem nextIssue_lb (mi last : ℚ) (c : ℚ × ℚ) (h1 : 0 ≤ c.1)
    (h2 : 0 ≤ c.2) : last + mi ≤ nextIssue mi last c := by
  unfold nextIssue sleepFor
  split_ifs with h
  · linarith
  · push_neg at h
    linarith

theorem issueTimes_mem_lb (mi : ℚ) (hmi : 0 ≤ mi) :
    ∀ (calls : List (ℚ × ℚ)) (last : ℚ),
      (∀ c ∈ calls, 0 ≤ c.1 ∧ 0 ≤ c.2) →
      ∀ t ∈ issueTimes mi last calls, last + mi ≤ t := by
  intro calls
  induction calls with
  | nil => intro last _ t ht; simp [issueTimes] at ht
  | cons c rest ih =>
      intro last hc t ht
      have hc0 := hc c (List.mem_cons_self c rest)
      have hfirst := nextIssue_lb mi last c hc0.1 hc0.2
      simp only [issueTimes, List.mem_cons] at ht
      rcases ht with rfl | ht
      · exact hfirst
      · have := ih (nextIssue mi last c)
          (fun c' hc' => hc c' (List.mem_cons_of_mem c hc')) t ht
        linarith

theorem issueTimes_chain (mi : ℚ) (hmi : 0 ≤ mi) :
    ∀ (calls : List (ℚ × ℚ)) (last : ℚ),
      (∀ c ∈ calls, 0 ≤ c.1 ∧ 0 ≤ c.2) →
      List.Chain' (fun t t' => t + mi ≤ t') (issueTimes mi last calls) := by
  intro calls
  induction calls with
  | nil => intro last _; simp [issueTimes]
  | cons c rest ih =>
      intro last hc
      have htail : ∀ c' ∈ rest, 0 ≤ c'.1 ∧ 0 ≤ c'.2 :=
        fun c' hc' => hc c' (List.mem_cons_of_mem c hc')
      simp only [issueTimes]
      rw [List.chain'_cons']
      refine ⟨?_, ih (nextIssue mi last c) htail⟩
      intro b hb
      exact issueTimes_mem_lb mi hmi rest (nextIssue mi last c) htail b
        (List.mem_of_mem_head? hb)

theorem issueTimes_getLast_lb (mi : ℚ) (hmi : 0 ≤ mi) :
    ∀ (calls : List (ℚ × ℚ)) (last : ℚ),
      (∀ c ∈ calls, 0 ≤ c.1 ∧ 0 ≤ c.2) →
      ∀ h : issueTimes mi last calls ≠ [],
        last + calls.length * mi ≤ (issueTimes mi last calls).getLast h := by
  intro calls
  induction calls with
  | nil => intro last _ h; simp [issueTimes] at h
  | cons c rest ih =>
      intro last hc h
      have hc0 := hc c (List.mem_cons_self c rest)
      have htail : ∀ c' ∈ rest, 0 ≤ c'.1 ∧ 0 ≤ c'.2 :=
        fun c' hc' => hc c' (List.mem_cons_of_mem c hc')
      have hfirst := nextIssue_lb mi last c hc0.1 hc0.2
      cases rest with
      | nil =>
          simp only [issueTimes, List.getLast_singleton, List.length_cons,
            List.length_nil]
          push_cast
          linarith
      | cons c2 rest2 =>
          have hne : issueTimes mi (nextIssue mi last c) (c2 :: rest2)
              ≠ [] := by
            simp [issueTimes]
          have hlast : (issueTimes mi last (c :: c2 :: rest2)).getLast h
              = (issueTimes mi (nextIssue mi last c)
                  (c2 :: rest2)).getLast hne := by
            simp only [issueTimes]
            exact List.getLast_cons hne
          rw [hlast]
          have := ih (nextIssue mi last c) htail hne
          rw [List.length_cons]
          push_cast
          linarith

/-- **C9** (confirmed). For the configured budget `rate_limit`, with
`min_interval = 60 / rate_limit`: before each request the connector
sleeps exactly `max(0, min_interval - elapsed)`; consecutive requests
are never issued less than `min_interval` apart; and over any sequence
of `N` consecutive calls (each arriving no earlier than the previous
issue time, with nonnegative scheduling slack) the wall-clock span from
first to last issue is at least `(N - 1) * min_interval`. -/
theorem rate_limiter_min_interval (rateLimit last0 : ℚ)
    (calls : List (ℚ × ℚ)) (hrl : 0 < rateLimit)
    (hcalls : ∀ c ∈ calls, 0 ≤ c.1 ∧ 0 ≤ c.2) :
    (∀ last now : ℚ, sleepFor (minRequestInterval rateLimit) last now
        = max 0 (minRequestInterval rateLimit - (now - last))) ∧
    List.Chain' (fun t t' => t + minRequestInterval rateLimit ≤ t')
      (issueTimes (minRequestInterval rateLimit) last0 calls) ∧
    ∀ h : issueTimes (minRequestInterval rateLimit) last0 calls ≠ [],
      ((calls.length - 1 : ℕ) : ℚ) * minRequestInterval rateLimit ≤
        (issueTimes (minRequestInterval rateLimit) last0 calls).getLast h
          - (issueTimes (minRequestInterval rateLimit) last0 calls).head
              (by simpa using h) := by
  have hmi : 0 ≤ minRequestInterval rateLimit :=
    le_of_lt (div_pos (by norm_num) hrl)
  refine ⟨?_, issueTimes_chain _ hmi calls last0 hcalls, ?_⟩
  · intro last now
    unfold sleepFor
    split_ifs with h
    · rw [max_eq_right (by linarith)]
    · rw [max_eq_left (by linarith)]
  · intro h
    cases calls with
    | nil => simp [issueTimes] at h
    | cons c rest =>
        have hc0 := hcalls c (List.mem_cons_self c rest)
        have htail : ∀ c' ∈ rest, 0 ≤ c'.1 ∧ 0 ≤ c'.2 :=
          fun c' hc' => hcalls c' (List.mem_cons_of_mem c hc')
        have hhead : (issueTimes (minRequestInterval rateLimit) last0
            (c :: rest)).head (by simpa using h)
              = nextIssue (minRequestInterval rateLimit) last0 c := by
          simp [issueTimes]
        cases rest with
        | nil =>
            simp only [issueTimes, List.getLast_singleton, hhead,
              List.length_cons, List.length_nil]
            norm_num
        | cons c2 rest2 =>
            have hne : issueTimes (minRequestInterval rateLimit)
                (nextIssue (minRequestInterval rateLimit) last0 c)
                  (c2 :: rest2) ≠ [] := by
              simp [issueTimes]
            have hlast : (issueTimes (minRequestInterval rateLimit) last0
                (c :: c2 :: rest2)).getLast h
                  = (issueTimes (minRequestInterval rateLimit)
                      (nextIssue (minRequestInterval rateLimit) last0 c)
                      (c2 :: rest2)).getLast hne := by
              simp only [issueTimes]
              exact List.getLast_cons hne
            have hlb := issueTimes_getLast_lb _ hmi (c2 :: rest2)
              (nextIssue (minRequestInterval rateLimit) last0 c) htail hne
            rw [hlast, hhead]
            have hlen : ((c :: c2 :: rest2).length - 1 : ℕ)
                = (c2 :: rest2).length := by
              simp
            rw [hlen]
            linarith

/-- Witness for `rate_limiter_min_interval`: budget 60 requests per
minute (`min_interval = 1s`), two back-to-back calls. -/
theorem rate_limiter_min_interval_witness :
    (∀ last now : ℚ, sleepFor (minRequestInterval 60) last now
        = max 0 (minRequestInterval 60 - (now - last))) ∧
    List.Chain' (fun t t' => t + minRequestInterval 60 ≤ t')
      (issueTimes (minRequestInterval 60) 0 [(0, 0), (0, 0)]) ∧
    ∀ h : issueTimes (minRequestInterval 60) 0 [(0, 0), (0, 0)] ≠ [],
      ((([((0:ℚ), (0:ℚ)), (0, 0)]).length - 1 : ℕ) : ℚ)
          * minRequestInterval 60 ≤
        (issueTimes (minRequestInterval 60) 0 [(0, 0), (0, 0)]).getLast h
          - (issueTimes (minRequestInterval 60) 0 [(0, 0), (0, 0)]).head
              (by simpa using h) :=
  rate_limiter_min_interval 60 0 [(0, 0), (0, 0)] (by norm_num)
    (by norm_num)

end Pipeline
